import Mathlib

/-
Verification development for the OCB auction board (src/app.py).
The Auction State Engine is shallowly embedded: the module-level
Python state (TEAM_NAMES, team_state, current_card) becomes an
explicit EngineState record, the insertion-ordered dict team_state
becomes an association list, and each route handler that mutates
engine state becomes a pure function from state to state plus a
result describing the HTTP-level outcome.
-/

namespace AuctionBoard

/-- Initial budget for every team (BUDGET = 10_000 in app.py). -/
def BUDGET : Int := 10000

/-- Largest displayable player number (MAX_IMAGE_NUM = 120 in app.py). -/
def MAX_IMAGE_NUM : Int := 120

/-- One roster entry, as appended by the assign route:
the dict with keys idx, name, prize, player_num. -/
structure RosterEntry where
  idx : Nat
  name : String
  prize : Int
  player_num : Int
deriving DecidableEq

/-- Per-team state: the dict with keys left and players. -/
structure TeamSt where
  left : Int
  players : List RosterEntry
deriving DecidableEq

/-- The current_card dict: player, name, image_key, each possibly None. -/
structure CurrentCard where
  player : Option Int
  name : Option String
  image_key : Option String
deriving DecidableEq

/-- The whole mutable engine state: TEAM_NAMES, team_state (an
insertion-ordered dict modelled as an association list), current_card. -/
structure EngineState where
  teamNames : List String
  teams : List (String × TeamSt)
  currentCard : CurrentCard
deriving DecidableEq

/-- A fresh team value, as built everywhere in app.py:
left = BUDGET and players = []. -/
def freshTeam : TeamSt := { left := BUDGET, players := [] }

/-- The empty current card, all fields None. -/
def emptyCard : CurrentCard := { player := none, name := none, image_key := none }

/-- Python dict lookup on the insertion-ordered association list. -/
def lookupTeam (name : String) : List (String × TeamSt) → Option TeamSt
  | [] => none
  | nt :: rest => if nt.1 = name then some nt.2 else lookupTeam name rest

/-- Python dict.setdefault: keep an existing binding, otherwise
append the new binding at the end (insertion order). -/
def setdefaultTeam (name : String) (v : TeamSt) (ts : List (String × TeamSt)) :
    List (String × TeamSt) :=
  match lookupTeam name ts with
  | some _ => ts
  | none => ts ++ [(name, v)]

/-- In-place mutation of the binding of a key, as team_state[team] is
mutated by the assign route. -/
def updateTeam (name : String) (f : TeamSt → TeamSt) (ts : List (String × TeamSt)) :
    List (String × TeamSt) :=
  ts.map (fun nt => if nt.1 = name then (nt.1, f nt.2) else nt)

/-- The dict comprehension building a fresh team_state from a name list,
as in load_state and reset_auction_state. -/
def freshTeams (names : List String) : List (String × TeamSt) :=
  names.foldl (fun ts n => setdefaultTeam n freshTeam ts) []

/-- Fresh engine state when no persisted document exists (load_state
fresh path followed by the startup reconcile, which is a no-op there). -/
def initState (names : List String) : EngineState :=
  { teamNames := names, teams := freshTeams names, currentCard := emptyCard }

/-- put_object: returns True on upload success, False on error
(both exceptions are caught inside, lines 84-101 of app.py).
The argument is whether the underlying storage write succeeds. -/
def put_object (uploadOk : Bool) : Bool := uploadOk

/-- save_state (lines 362-377 of app.py): serializes the payload and
calls put_object, but discards the boolean returned by put_object and
returns True. The except branch returning False is only reachable on a
serialization error, never on a storage-write failure, because
put_object catches its own exceptions. -/
def save_state (uploadOk : Bool) : Bool :=
  let _uploaded := put_object uploadOk
  true

/-- Outcome of the assign route: redirect to main without mutation
(unknown team or missing player), the user-visible insufficient-budget
rejection page, or a successful assignment. -/
inductive AssignResult
  | redirectMain
  | insufficientBudget (team : String)
  | assigned (player : Int)
deriving DecidableEq

/-- Outcome of the undo route: an entry was removed, or no entry
matched anywhere (also a redirect in the code, not an error page). -/
inductive UndoResult
  | removed (player : Int)
  | noMatch
deriving DecidableEq

/-- The assign route (lines 811-827 of app.py), after form parsing:
team must be a key of team_state; if amount exceeds the team budget
the request is rejected with an error page and nothing changes;
otherwise an entry is appended, the balance decremented, and
save_state called. The last component records whether save_state was
invoked. The resolve argument embeds get_player_name (Name Resolver). -/
def assign (resolve : Int → String) (s : EngineState) (team : String)
    (player : Int) (amount : Int) : EngineState × AssignResult × Bool :=
  match lookupTeam team s.teams with
  | none => (s, AssignResult.redirectMain, false)
  | some t =>
    if amount > t.left then
      (s, AssignResult.insufficientBudget team, false)
    else
      let entry : RosterEntry :=
        { idx := t.players.length + 1,
          name := toString player ++ "_" ++ resolve player,
          prize := amount, player_num := player }
      let ts' := updateTeam team
        (fun u => { left := u.left - amount, players := u.players ++ [entry] }) s.teams
      ({ s with teams := ts' }, AssignResult.assigned player, true)

/-- Match test of the undo route (line 837 of app.py): player_num
equals the target, or the display name begins with the target number
followed by an underscore. -/
def entryMatches (target : Int) (p : RosterEntry) : Bool :=
  p.player_num == target || p.name.startsWith (toString target ++ "_")

/-- Scan for the first matching entry; on a match return it together
with the remaining entries (the pop in line 840 of app.py). -/
def removeFirst (target : Int) : List RosterEntry → Option (RosterEntry × List RosterEntry)
  | [] => none
  | p :: ps =>
    if entryMatches target p then some (p, ps)
    else
      match removeFirst target ps with
      | none => none
      | some (q, qs) => some (q, p :: qs)

/-- Renumber entries with consecutive indices starting at i. -/
def reindexFrom (i : Nat) : List RosterEntry → List RosterEntry
  | [] => []
  | p :: ps => { p with idx := i } :: reindexFrom (i + 1) ps

/-- The helper at lines 442-445 of app.py: renumber a roster so that
idx runs 1, 2, 3, ... -/
def _reindex_team (ps : List RosterEntry) : List RosterEntry := reindexFrom 1 ps

/-- The team loop of the undo route: walk teams in insertion order,
and in the first team holding a match remove the first matching entry,
refund its prize and renumber; later teams are untouched. -/
def undoTeams (target : Int) : List (String × TeamSt) → Option (List (String × TeamSt))
  | [] => none
  | (n, t) :: rest =>
    match removeFirst target t.players with
    | some (q, qs) =>
        some ((n, { left := t.left + q.prize, players := _reindex_team qs }) :: rest)
    | none =>
        match undoTeams target rest with
        | none => none
        | some rest' => some ((n, t) :: rest')

/-- The undo route (lines 829-844 of app.py), after form parsing.
On no match the state is returned unchanged and the route redirects
(a successful no-op). The last component records whether save_state
was invoked. -/
def undo (s : EngineState) (target : Int) : EngineState × UndoResult × Bool :=
  match undoTeams target s.teams with
  | some ts' => ({ s with teams := ts' }, UndoResult.removed target, true)
  | none => (s, UndoResult.noMatch, false)

/-- The player-display part of the main route (lines 788-804 of
app.py), after parsing the query parameter to an integer: only values
in 1..MAX_IMAGE_NUM update current_card (and trigger save_state); any
other value leaves the state untouched. findImage embeds the
find_image_key and sign_url collaborators. The Bool records whether
the card was updated and persisted. -/
def showPlayer (resolve : Int → String) (findImage : Int → Option String)
    (s : EngineState) (n : Int) : EngineState × Bool :=
  if 1 ≤ n ∧ n ≤ MAX_IMAGE_NUM then
    ({ s with currentCard :=
        { player := some n, name := some (resolve n), image_key := findImage n } }, true)
  else (s, false)

/-- reconcile_team_state (lines 406-414 of app.py): setdefault every
supplied name into team_state; existing bindings are kept untouched. -/
def reconcile_team_state (s : EngineState) (newNames : List String) : EngineState :=
  { s with teams := newNames.foldl (fun ts n => setdefaultTeam n freshTeam ts) s.teams }

/-- reset_auction_state (lines 419-433 of app.py): rebuild team_state
from the current TEAM_NAMES list and clear current_card. -/
def reset_auction_state (s : EngineState) : EngineState :=
  { teamNames := s.teamNames, teams := freshTeams s.teamNames, currentCard := emptyCard }

/-- The tail of the upload routes (lines 748-752 of app.py): TEAM_NAMES
is reassigned from the freshly loaded name list, and the state is then
reconciled against it. -/
def uploadTeams (s : EngineState) (newNames : List String) : EngineState :=
  reconcile_team_state { s with teamNames := newNames } newNames

/-- States reachable from a fresh state by the four engine operations
named in the spec: assign, undo, reset, reconcileTeams. -/
inductive Reachable : EngineState → Prop
  | init (names : List String) : Reachable (initState names)
  | step_assign {s} (resolve : Int → String) (team : String) (player amount : Int) :
      Reachable s → Reachable (assign resolve s team player amount).1
  | step_undo {s} (target : Int) : Reachable s → Reachable (undo s target).1
  | step_reset {s} : Reachable s → Reachable (reset_auction_state s)
  | step_reconcile {s} (newNames : List String) :
      Reachable s → Reachable (reconcile_team_state s newNames)

/-- Sum of prizes over a roster. -/
def sumPrizes (ps : List RosterEntry) : Int := ps.foldr (fun p acc => p.prize + acc) 0

/-- Budget conservation for one association list of teams. -/
def Conserved (ts : List (String × TeamSt)) : Prop :=
  ∀ nt ∈ ts, nt.2.left + sumPrizes nt.2.players = BUDGET

/-- Entry i of the roster carries index i (counting from the start value). -/
def wellIndexedFrom : Nat → List RosterEntry → Bool
  | _, [] => true
  | i, p :: ps => p.idx == i && wellIndexedFrom (i + 1) ps

/-- Roster indices are contiguous starting at 1. -/
def WellIndexed (ps : List RosterEntry) : Prop := wellIndexedFrom 1 ps = true

/-- The association list has no duplicate keys (Python dicts cannot). -/
def KeysNodup (ts : List (String × TeamSt)) : Prop := (ts.map Prod.fst).Nodup

/-! Section: Association-list lemmas -/

theorem lookupTeam_mem {name : String} {ts : List (String × TeamSt)} {t : TeamSt}
    (h : lookupTeam name ts = some t) : (name, t) ∈ ts := by
  induction ts with
  | nil => simp [lookupTeam] at h
  | cons nt rest ih =>
    rw [lookupTeam] at h
    by_cases hn : nt.1 = name
    · rw [if_pos hn] at h
      have ht : nt.2 = t := by injection h
      have hnt : nt = (name, t) := by cases nt; simp_all
      rw [hnt]
      exact List.mem_cons_self _ _
    · rw [if_neg hn] at h
      exact List.mem_cons_of_mem _ (ih h)

theorem mem_lookupTeam_of_nodup {name : String} {ts : List (String × TeamSt)} {t : TeamSt}
    (hnd : KeysNodup ts) (h : (name, t) ∈ ts) : lookupTeam name ts = some t := by
  induction ts with
  | nil => simp at h
  | cons nt rest ih =>
    rw [KeysNodup, List.map_cons, List.nodup_cons] at hnd
    rcases List.mem_cons.mp h with heq | hmem
    · rw [lookupTeam, ← heq]
      simp
    · have hne : nt.1 ≠ name := by
        intro he
        exact hnd.1 (he ▸ List.mem_map_of_mem Prod.fst hmem)
      rw [lookupTeam, if_neg hne]
      exact ih hnd.2 hmem

theorem lookupTeam_append (name : String) (ts us : List (String × TeamSt)) :
    lookupTeam name (ts ++ us) =
      match lookupTeam name ts with
      | some t => some t
      | none => lookupTeam name us := by
  induction ts with
  | nil => simp [lookupTeam]
  | cons nt rest ih =>
    by_cases hn : nt.1 = name
    · simp [lookupTeam, hn]
    · simp [lookupTeam, hn, ih]

theorem lookupTeam_eq_none_iff (name : String) (ts : List (String × TeamSt)) :
    lookupTeam name ts = none ↔ name ∉ ts.map Prod.fst := by
  induction ts with
  | nil => simp [lookupTeam]
  | cons nt rest ih =>
    by_cases hn : nt.1 = name
    · simp [lookupTeam, hn]
    · simp [lookupTeam, hn, ih, Ne.symm hn]

theorem lookupTeam_setdefault_of_some {name : String} {ts : List (String × TeamSt)}
    {t : TeamSt} (n : String) (v : TeamSt) (h : lookupTeam name ts = some t) :
    lookupTeam name (setdefaultTeam n v ts) = some t := by
  rw [setdefaultTeam]
  cases hn : lookupTeam n ts with
  | some _ => exact h
  | none => rw [lookupTeam_append, h]

theorem lookupTeam_setdefault_self {name : String} {ts : List (String × TeamSt)}
    (v : TeamSt) (h : lookupTeam name ts = none) :
    lookupTeam name (setdefaultTeam name v ts) = some v := by
  rw [setdefaultTeam, h, lookupTeam_append, h]
  simp [lookupTeam]

theorem lookupTeam_setdefault_other {name n : String} {ts : List (String × TeamSt)}
    (v : TeamSt) (hne : n ≠ name) :
    lookupTeam name (setdefaultTeam n v ts) = lookupTeam name ts := by
  rw [setdefaultTeam]
  cases hn : lookupTeam n ts with
  | some _ => rfl
  | none =>
    rw [lookupTeam_append]
    cases h : lookupTeam name ts with
    | some _ => rfl
    | none => simp [lookupTeam, hne]

/-- Full behaviour of a fold of setdefaults over a name list: existing
bindings survive unchanged; a missing name ends bound to freshTeam
exactly when it occurs in the list. -/
theorem lookupTeam_foldl_setdefault (nn : List String) (ts : List (String × TeamSt))
    (name : String) :
    lookupTeam name (nn.foldl (fun acc n => setdefaultTeam n freshTeam acc) ts) =
      match lookupTeam name ts with
      | some t => some t
      | none => if name ∈ nn then some freshTeam else none := by
  induction nn generalizing ts with
  | nil =>
    cases h : lookupTeam name ts <;> simp [h]
  | cons n rest ih =>
    rw [List.foldl_cons, ih]
    cases h : lookupTeam name ts with
    | some t =>
      rw [lookupTeam_setdefault_of_some n freshTeam h]
    | none =>
      by_cases hn : n = name
      · subst hn
        rw [lookupTeam_setdefault_self freshTeam h]
        simp
      · rw [lookupTeam_setdefault_other freshTeam hn, h]
        simp [List.mem_cons, Ne.symm hn]

/-- A fold of setdefaults only ever appends new bindings at the end. -/
theorem foldl_setdefault_ext (nn : List String) (ts : List (String × TeamSt)) :
    ∃ ext, nn.foldl (fun acc n => setdefaultTeam n freshTeam acc) ts = ts ++ ext := by
  induction nn generalizing ts with
  | nil => exact ⟨[], by simp⟩
  | cons n rest ih =>
    rw [List.foldl_cons, setdefaultTeam]
    cases h : lookupTeam n ts with
    | some _ => exact ih ts
    | none =>
      obtain ⟨ext, hext⟩ := ih (ts ++ [(n, freshTeam)])
      exact ⟨(n, freshTeam) :: ext, by rw [hext, List.append_assoc]; rfl⟩

/-- Every binding produced by a fold of setdefaults is either one of
the original bindings or a fresh team. -/
theorem mem_foldl_setdefault {nn : List String} {ts : List (String × TeamSt)}
    {nt : String × TeamSt}
    (h : nt ∈ nn.foldl (fun acc n => setdefaultTeam n freshTeam acc) ts) :
    nt ∈ ts ∨ nt.2 = freshTeam := by
  induction nn generalizing ts with
  | nil => exact Or.inl (by simpa using h)
  | cons n rest ih =>
    rw [List.foldl_cons, setdefaultTeam] at h
    cases hl : lookupTeam n ts with
    | some _ =>
      rw [hl] at h
      exact ih h
    | none =>
      rw [hl] at h
      rcases ih h with hmem | hfresh
      · rcases List.mem_append.mp hmem with hts | hnew
        · exact Or.inl hts
        · right
          have : nt = (n, freshTeam) := by simpa using hnew
          rw [this]
      · exact Or.inr hfresh

theorem keysNodup_setdefault {ts : List (String × TeamSt)} (n : String) (v : TeamSt)
    (hnd : KeysNodup ts) : KeysNodup (setdefaultTeam n v ts) := by
  rw [setdefaultTeam]
  cases h : lookupTeam n ts with
  | some _ => exact hnd
  | none =>
    have hnin : n ∉ ts.map Prod.fst := (lookupTeam_eq_none_iff n ts).mp h
    rw [KeysNodup, List.map_append]
    simp only [List.map_cons, List.map_nil]
    rw [List.nodup_append]
    refine ⟨hnd, List.nodup_singleton n, ?_⟩
    intro a ha hb
    rw [List.mem_singleton] at hb
    subst hb
    exact hnin ha

theorem keysNodup_foldl_setdefault (nn : List String) {ts : List (String × TeamSt)}
    (hnd : KeysNodup ts) :
    KeysNodup (nn.foldl (fun acc n => setdefaultTeam n freshTeam acc) ts) := by
  induction nn generalizing ts with
  | nil => exact hnd
  | cons n rest ih => exact ih (keysNodup_setdefault n freshTeam hnd)

/-! Section: updateTeam lemmas -/

theorem updateTeam_keys (name : String) (f : TeamSt → TeamSt) (ts : List (String × TeamSt)) :
    (updateTeam name f ts).map Prod.fst = ts.map Prod.fst := by
  induction ts with
  | nil => rfl
  | cons nt rest ih =>
    rw [updateTeam, List.map_cons, List.map_cons, List.map_cons]
    rw [updateTeam] at ih
    by_cases hn : nt.1 = name <;> simp [hn, ih]

theorem mem_updateTeam {name : String} {f : TeamSt → TeamSt} {ts : List (String × TeamSt)}
    {nt' : String × TeamSt} (h : nt' ∈ updateTeam name f ts) :
    nt' ∈ ts ∨ ∃ u, (name, u) ∈ ts ∧ nt' = (name, f u) := by
  rw [updateTeam] at h
  obtain ⟨nt, hmem, heq⟩ := List.mem_map.mp h
  by_cases hn : nt.1 = name
  · right
    refine ⟨nt.2, ?_, ?_⟩
    · have : (name, nt.2) = nt := by cases nt; simp_all
      rw [this]; exact hmem
    · rw [← heq, if_pos hn, hn]
  · left
    rw [← heq, if_neg hn]
    exact hmem

theorem updateTeam_no_key {name : String} {f : TeamSt → TeamSt} {ts : List (String × TeamSt)}
    (h : ∀ nt ∈ ts, nt.1 ≠ name) : updateTeam name f ts = ts := by
  induction ts with
  | nil => rfl
  | cons nt rest ih =>
    rw [updateTeam, List.map_cons, if_neg (h nt (List.mem_cons_self _ _))]
    rw [updateTeam] at ih
    rw [ih fun x hx => h x (List.mem_cons_of_mem _ hx)]

theorem updateTeam_append (name : String) (f : TeamSt → TeamSt)
    (ts us : List (String × TeamSt)) :
    updateTeam name f (ts ++ us) = updateTeam name f ts ++ updateTeam name f us := by
  simp [updateTeam]

/-- Decompose a successful lookup into a prefix of other keys, the
found binding, and the remainder. -/
theorem lookupTeam_split {name : String} {ts : List (String × TeamSt)} {t : TeamSt}
    (h : lookupTeam name ts = some t) :
    ∃ pre post, ts = pre ++ (name, t) :: post ∧ ∀ nt ∈ pre, nt.1 ≠ name := by
  induction ts with
  | nil => simp [lookupTeam] at h
  | cons nt rest ih =>
    rw [lookupTeam] at h
    by_cases hn : nt.1 = name
    · rw [if_pos hn] at h
      have ht : nt.2 = t := by injection h
      refine ⟨[], rest, ?_, by simp⟩
      have : nt = (name, t) := by cases nt; simp_all
      rw [this]; rfl
    · rw [if_neg hn] at h
      obtain ⟨pre, post, heq, hpre⟩ := ih h
      refine ⟨nt :: pre, post, by rw [heq]; rfl, ?_⟩
      intro x hx
      rcases List.mem_cons.mp hx with hh | hm
      · rw [hh]; exact hn
      · exact hpre x hm

theorem updateTeam_cons_hit (name : String) (f : TeamSt → TeamSt) (t : TeamSt)
    (rest : List (String × TeamSt)) :
    updateTeam name f ((name, t) :: rest) = (name, f t) :: updateTeam name f rest := by
  simp [updateTeam]

/-- In a nodup key list split around the found binding, the suffix
cannot hold the key again. -/
theorem post_no_key {name : String} {ts pre post : List (String × TeamSt)} {t : TeamSt}
    (hnd : KeysNodup ts) (heq : ts = pre ++ (name, t) :: post) :
    ∀ nt ∈ post, nt.1 ≠ name := by
  rw [KeysNodup, heq, List.map_append, List.map_cons] at hnd
  have h2 := (List.nodup_append.mp hnd).2.1
  have h3 := (List.nodup_cons.mp h2).1
  intro nt hnt he
  have hmm : nt.1 ∈ List.map Prod.fst post := List.mem_map_of_mem Prod.fst hnt
  rw [he] at hmm
  exact h3 hmm

/-- With unique keys, updating the looked-up team rewrites exactly
that binding in place. -/
theorem updateTeam_of_lookup {name : String} {ts : List (String × TeamSt)} {t : TeamSt}
    {pre post : List (String × TeamSt)} (f : TeamSt → TeamSt) (hnd : KeysNodup ts)
    (heq : ts = pre ++ (name, t) :: post) (hpre : ∀ nt ∈ pre, nt.1 ≠ name) :
    updateTeam name f ts = pre ++ (name, f t) :: post := by
  rw [heq, updateTeam_append, updateTeam_no_key hpre, updateTeam_cons_hit,
    updateTeam_no_key (post_no_key hnd heq)]

/-! Section: Roster lemmas -/

theorem sumPrizes_cons (p : RosterEntry) (ps : List RosterEntry) :
    sumPrizes (p :: ps) = p.prize + sumPrizes ps := rfl

theorem sumPrizes_append (ps : List RosterEntry) (e : RosterEntry) :
    sumPrizes (ps ++ [e]) = sumPrizes ps + e.prize := by
  induction ps with
  | nil => simp [sumPrizes]
  | cons p rest ih =>
    rw [List.cons_append, sumPrizes_cons, sumPrizes_cons, ih]
    ring

theorem sumPrizes_reindexFrom (i : Nat) (ps : List RosterEntry) :
    sumPrizes (reindexFrom i ps) = sumPrizes ps := by
  induction ps generalizing i with
  | nil => rfl
  | cons p rest ih =>
    rw [reindexFrom, sumPrizes_cons, sumPrizes_cons, ih]

theorem removeFirst_sum {target : Int} {ps qs : List RosterEntry} {q : RosterEntry}
    (h : removeFirst target ps = some (q, qs)) :
    sumPrizes ps = q.prize + sumPrizes qs := by
  induction ps generalizing qs with
  | nil => simp [removeFirst] at h
  | cons p rest ih =>
    rw [removeFirst] at h
    by_cases hm : entryMatches target p
    · rw [if_pos hm] at h
      simp only [Option.some.injEq, Prod.mk.injEq] at h
      rw [← h.1, ← h.2, sumPrizes_cons]
    · rw [if_neg hm] at h
      cases hr : removeFirst target rest with
      | none => rw [hr] at h; exact absurd h (by simp)
      | some pair =>
        obtain ⟨q', qs'⟩ := pair
        rw [hr] at h
        simp only [Option.some.injEq, Prod.mk.injEq] at h
        obtain ⟨h1, h2⟩ := h
        subst h1
        subst h2
        rw [sumPrizes_cons, sumPrizes_cons, ih hr]
        ring

theorem wellIndexedFrom_reindexFrom (ps : List RosterEntry) (i : Nat) :
    wellIndexedFrom i (reindexFrom i ps) = true := by
  induction ps generalizing i with
  | nil => rfl
  | cons p rest ih =>
    rw [reindexFrom, wellIndexedFrom]
    simp [ih]

theorem reindexFrom_of_wellIndexed {ps : List RosterEntry} {i : Nat}
    (h : wellIndexedFrom i ps = true) : reindexFrom i ps = ps := by
  induction ps generalizing i with
  | nil => rfl
  | cons p rest ih =>
    rw [wellIndexedFrom, Bool.and_eq_true, beq_iff_eq] at h
    rw [reindexFrom, ih h.2]
    congr 1
    cases p
    simp_all

theorem wellIndexedFrom_append {ps : List RosterEntry} {i : Nat} {e : RosterEntry}
    (h : wellIndexedFrom i ps = true) (he : e.idx = i + ps.length) :
    wellIndexedFrom i (ps ++ [e]) = true := by
  induction ps generalizing i with
  | nil =>
    rw [List.nil_append, wellIndexedFrom, wellIndexedFrom]
    simp at he
    simp [he]
  | cons p rest ih =>
    rw [wellIndexedFrom, Bool.and_eq_true, beq_iff_eq] at h
    rw [List.cons_append, wellIndexedFrom, Bool.and_eq_true, beq_iff_eq]
    refine ⟨h.1, ih h.2 ?_⟩
    rw [he, List.length_cons]
    omega

/-- Contiguity spelled entrywise: under wellIndexedFrom k, the entry
at position i carries index k + i. -/
theorem wellIndexedFrom_get {ps : List RosterEntry} {k : Nat}
    (h : wellIndexedFrom k ps = true) (i : Nat) (hi : i < ps.length) :
    (ps.get ⟨i, hi⟩).idx = k + i := by
  induction ps generalizing k i with
  | nil => simp at hi
  | cons p rest ih =>
    rw [wellIndexedFrom, Bool.and_eq_true, beq_iff_eq] at h
    cases i with
    | zero => simpa using h.1
    | succ j =>
      have hj : j < rest.length := by simpa using hi
      have := ih h.2 j hj
      simp only [List.get_cons_succ]
      omega

/-! Section: removeFirst and undoTeams characterizations -/

theorem removeFirst_none_of_no_match {target : Int} {ps : List RosterEntry}
    (h : ∀ p ∈ ps, entryMatches target p = false) : removeFirst target ps = none := by
  induction ps with
  | nil => rfl
  | cons p rest ih =>
    rw [removeFirst, if_neg (by simp [h p (List.mem_cons_self _ _)]),
      ih fun x hx => h x (List.mem_cons_of_mem _ hx)]

theorem removeFirst_split {target : Int} {qs₁ : List RosterEntry} (qs₂ : List RosterEntry)
    {q : RosterEntry}
    (h₁ : ∀ p ∈ qs₁, entryMatches target p = false) (hq : entryMatches target q = true) :
    removeFirst target (qs₁ ++ q :: qs₂) = some (q, qs₁ ++ qs₂) := by
  induction qs₁ with
  | nil => simp [removeFirst, hq]
  | cons p rest ih =>
    rw [List.cons_append, removeFirst,
      if_neg (by simp [h₁ p (List.mem_cons_self _ _)]),
      ih fun x hx => h₁ x (List.mem_cons_of_mem _ hx)]
    rfl

theorem undoTeams_none_of_no_match {target : Int} {ts : List (String × TeamSt)}
    (h : ∀ nt ∈ ts, ∀ p ∈ nt.2.players, entryMatches target p = false) :
    undoTeams target ts = none := by
  induction ts with
  | nil => rfl
  | cons nt rest ih =>
    obtain ⟨n, t⟩ := nt
    rw [undoTeams,
      removeFirst_none_of_no_match (h (n, t) (List.mem_cons_self _ _)),
      ih fun x hx => h x (List.mem_cons_of_mem _ hx)]

/-- The undo scan walks over match-free teams untouched and rewrites
the first team holding a match, leaving everything after it alone. -/
theorem undoTeams_split {target : Int} {pre : List (String × TeamSt)}
    (n : String) (t : TeamSt) (post : List (String × TeamSt))
    {q : RosterEntry} {qs : List RosterEntry}
    (hpre : ∀ nt ∈ pre, ∀ p ∈ nt.2.players, entryMatches target p = false)
    (hrf : removeFirst target t.players = some (q, qs)) :
    undoTeams target (pre ++ (n, t) :: post) =
      some (pre ++ (n, { left := t.left + q.prize, players := _reindex_team qs }) :: post) := by
  induction pre with
  | nil => simp [undoTeams, hrf]
  | cons nt rest ih =>
    obtain ⟨m, u⟩ := nt
    rw [List.cons_append, undoTeams,
      removeFirst_none_of_no_match (hpre (m, u) (List.mem_cons_self _ _)),
      ih fun x hx => hpre x (List.mem_cons_of_mem _ hx)]
    simp

theorem undoTeams_keys {target : Int} {ts ts' : List (String × TeamSt)}
    (h : undoTeams target ts = some ts') : ts'.map Prod.fst = ts.map Prod.fst := by
  induction ts generalizing ts' with
  | nil => simp [undoTeams] at h
  | cons nt rest ih =>
    obtain ⟨n, t⟩ := nt
    rw [undoTeams] at h
    cases hrf : removeFirst target t.players with
    | some pair =>
      obtain ⟨q, qs⟩ := pair
      rw [hrf] at h
      simp only [Option.some.injEq] at h
      rw [← h]
      simp
    | none =>
      rw [hrf] at h
      cases hu : undoTeams target rest with
      | none => rw [hu] at h; exact absurd h (by simp)
      | some rest' =>
        rw [hu] at h
        simp only [Option.some.injEq] at h
        rw [← h, List.map_cons, List.map_cons, ih hu]

/-- Every binding after an undo is an original binding or the refunded
and renumbered rewrite of an original binding. -/
theorem mem_undoTeams {target : Int} {ts ts' : List (String × TeamSt)}
    (h : undoTeams target ts = some ts') :
    ∀ nt' ∈ ts', nt' ∈ ts ∨
      ∃ n u q qs, (n, u) ∈ ts ∧ removeFirst target u.players = some (q, qs) ∧
        nt' = (n, { left := u.left + q.prize, players := _reindex_team qs }) := by
  induction ts generalizing ts' with
  | nil => simp [undoTeams] at h
  | cons nt rest ih =>
    obtain ⟨n, t⟩ := nt
    rw [undoTeams] at h
    cases hrf : removeFirst target t.players with
    | some pair =>
      obtain ⟨q, qs⟩ := pair
      rw [hrf] at h
      simp only [Option.some.injEq] at h
      intro nt' hnt'
      rw [← h] at hnt'
      rcases List.mem_cons.mp hnt' with hh | hm
      · exact Or.inr ⟨n, t, q, qs, List.mem_cons_self _ _, hrf, hh⟩
      · exact Or.inl (List.mem_cons_of_mem _ hm)
    | none =>
      rw [hrf] at h
      cases hu : undoTeams target rest with
      | none => rw [hu] at h; exact absurd h (by simp)
      | some rest' =>
        rw [hu] at h
        simp only [Option.some.injEq] at h
        intro nt' hnt'
        rw [← h] at hnt'
        rcases List.mem_cons.mp hnt' with hh | hm
        · exact Or.inl (hh ▸ List.mem_cons_self _ _)
        · rcases ih hu nt' hm with hold | ⟨m, u, q, qs, hmem, hrf', heq⟩
          · exact Or.inl (List.mem_cons_of_mem _ hold)
          · exact Or.inr ⟨m, u, q, qs, List.mem_cons_of_mem _ hmem, hrf', heq⟩

/-! Section: The reachable-state invariant -/

theorem freshTeams_inv (names : List String) :
    KeysNodup (freshTeams names) ∧ Conserved (freshTeams names) ∧
      ∀ nt ∈ freshTeams names, WellIndexed nt.2.players := by
  refine ⟨keysNodup_foldl_setdefault names (by simp [KeysNodup]), ?_, ?_⟩
  · intro nt hnt
    rcases mem_foldl_setdefault hnt with h | h
    · simp at h
    · rw [h]; decide
  · intro nt hnt
    rcases mem_foldl_setdefault hnt with h | h
    · simp at h
    · rw [h]; rfl

/-- Key uniqueness, budget conservation and index contiguity hold in
every state reachable by assign, undo, reset and reconcileTeams from a
fresh state. -/
theorem reachable_inv {s : EngineState} (h : Reachable s) :
    KeysNodup s.teams ∧ Conserved s.teams ∧ ∀ nt ∈ s.teams, WellIndexed nt.2.players := by
  induction h with
  | init names => exact freshTeams_inv names
  | step_assign resolve team player amount hs ih =>
    obtain ⟨hnd, hcons, hwi⟩ := ih
    rename_i s'
    cases hl : lookupTeam team s'.teams with
    | none =>
      have hstate : (assign resolve s' team player amount).1 = s' := by
        simp [assign, hl]
      rw [hstate]
      exact ⟨hnd, hcons, hwi⟩
    | some t =>
      by_cases hamt : amount > t.left
      · have hstate : (assign resolve s' team player amount).1 = s' := by
          simp [assign, hl, hamt]
        rw [hstate]
        exact ⟨hnd, hcons, hwi⟩
      · have hstate : (assign resolve s' team player amount).1 =
            { s' with teams := updateTeam team (fun u =>
                { left := u.left - amount, players := u.players ++
                  [{ idx := t.players.length + 1,
                     name := toString player ++ "_" ++ resolve player,
                     prize := amount, player_num := player }] }) s'.teams } := by
          simp [assign, hl, hamt]
        rw [hstate]
        dsimp only
        refine ⟨?_, ?_, ?_⟩
        · rw [KeysNodup, updateTeam_keys]
          exact hnd
        · intro nt' hnt'
          rcases mem_updateTeam hnt' with hold | ⟨u, hmem, heq⟩
          · exact hcons nt' hold
          · rw [heq]
            have h1 := hcons (team, u) hmem
            simp only at h1 ⊢
            rw [sumPrizes_append]
            simp only
            omega
        · intro nt' hnt'
          rcases mem_updateTeam hnt' with hold | ⟨u, hmem, heq⟩
          · exact hwi nt' hold
          · have hu : u = t := by
              have hlu := mem_lookupTeam_of_nodup hnd hmem
              rw [hl] at hlu
              injection hlu with h'
              exact h'.symm
            subst hu
            rw [heq]
            have h1 : wellIndexedFrom 1 u.players = true :=
              hwi (team, u) hmem
            exact wellIndexedFrom_append h1 (by simp; omega)
  | step_undo target hs ih =>
    obtain ⟨hnd, hcons, hwi⟩ := ih
    rename_i s'
    cases hu : undoTeams target s'.teams with
    | none =>
      have hstate : (undo s' target).1 = s' := by
        simp [undo, hu]
      rw [hstate]
      exact ⟨hnd, hcons, hwi⟩
    | some ts' =>
      have hstate : (undo s' target).1 = { s' with teams := ts' } := by
        simp [undo, hu]
      rw [hstate]
      dsimp only
      refine ⟨?_, ?_, ?_⟩
      · rw [KeysNodup, undoTeams_keys hu]
        exact hnd
      · intro nt' hnt'
        rcases mem_undoTeams hu nt' hnt' with hold | ⟨n, u, q, qs, hmem, hrf, heq⟩
        · exact hcons nt' hold
        · rw [heq]
          have h1 := hcons (n, u) hmem
          have h2 := removeFirst_sum hrf
          simp only at h1 ⊢
          rw [_reindex_team, sumPrizes_reindexFrom]
          omega
      · intro nt' hnt'
        rcases mem_undoTeams hu nt' hnt' with hold | ⟨n, u, q, qs, hmem, hrf, heq⟩
        · exact hwi nt' hold
        · rw [heq]
          show wellIndexedFrom 1 (_reindex_team qs) = true
          rw [_reindex_team]
          exact wellIndexedFrom_reindexFrom qs 1
  | step_reset hs ih =>
    rename_i s'
    exact freshTeams_inv s'.teamNames
  | step_reconcile newNames hs ih =>
    obtain ⟨hnd, hcons, hwi⟩ := ih
    rename_i s'
    refine ⟨keysNodup_foldl_setdefault newNames hnd, ?_, ?_⟩
    · intro nt hnt
      rcases mem_foldl_setdefault hnt with hold | hfresh
      · exact hcons nt hold
      · rw [hfresh]; decide
    · intro nt hnt
      rcases mem_foldl_setdefault hnt with hold | hfresh
      · exact hwi nt hold
      · rw [hfresh]; rfl

/-- Looking up the key at the seam of a split list with a key-free
prefix finds the seam binding. -/
theorem lookupTeam_pre_cons {name : String} {pre : List (String × TeamSt)}
    (post : List (String × TeamSt)) (t : TeamSt)
    (hpre : ∀ nt ∈ pre, nt.1 ≠ name) :
    lookupTeam name (pre ++ (name, t) :: post) = some t := by
  rw [lookupTeam_append]
  have h0 : lookupTeam name pre = none := by
    rw [lookupTeam_eq_none_iff]
    intro hmem
    obtain ⟨nt, hnt, he⟩ := List.mem_map.mp hmem
    exact hpre nt hnt he
  rw [h0]
  simp [lookupTeam]

/-! Section: Claim theorems -/

/-- Claim C1 (Budget conservation): in every state reachable from a
fresh state by any sequence of the four engine operations assign,
undo, reset and reconcileTeams, every team satisfies balance plus the
sum of priceSpent over its roster equals the initial budget. -/
theorem C1_budget_conservation (s : EngineState) (hs : Reachable s)
    (name : String) (t : TeamSt) (ht : lookupTeam name s.teams = some t) :
    t.left + sumPrizes t.players = BUDGET :=
  (reachable_inv hs).2.1 (name, t) (lookupTeam_mem ht)

theorem C1_budget_conservation_witness :
    (9500 : Int) +
      sumPrizes [{ idx := 1, name := "7_X", prize := 500, player_num := 7 }] = BUDGET :=
  C1_budget_conservation ((assign (fun _ => "X") (initState ["A"]) "A" 7 500).1)
    (Reachable.step_assign (fun _ => "X") "A" 7 500 (Reachable.init ["A"]))
    "A"
    { left := 9500, players := [{ idx := 1, name := "7_X", prize := 500, player_num := 7 }] }
    (by decide)

/-- Claim C7 (Sequence contiguity): in every reachable state, hence in
particular immediately after any assign or undo touching a team, the
roster entry at 0-based position i of every team carries sequence
index i + 1. -/
theorem C7_sequence_contiguity (s : EngineState) (hs : Reachable s)
    (name : String) (t : TeamSt) (ht : lookupTeam name s.teams = some t)
    (i : Nat) (hi : i < t.players.length) :
    (t.players.get ⟨i, hi⟩).idx = i + 1 := by
  have hwi : wellIndexedFrom 1 t.players = true :=
    (reachable_inv hs).2.2 (name, t) (lookupTeam_mem ht)
  have h := wellIndexedFrom_get hwi i hi
  omega

theorem C7_sequence_contiguity_witness :
    (([{ idx := 1, name := "7_X", prize := 500, player_num := 7 }] :
        List RosterEntry).get ⟨0, by decide⟩).idx = 0 + 1 :=
  C7_sequence_contiguity ((assign (fun _ => "X") (initState ["A"]) "A" 7 500).1)
    (Reachable.step_assign (fun _ => "X") "A" 7 500 (Reachable.init ["A"]))
    "A"
    { left := 9500, players := [{ idx := 1, name := "7_X", prize := 500, player_num := 7 }] }
    (by decide) 0 (by decide)

/-- Claim C3 (InsufficientBudget atomicity): whenever the requested
amount strictly exceeds the remaining balance of an existing team,
assign returns the user-visible insufficient-budget rejection with the
state completely unchanged, and save_state is not invoked. -/
theorem C3_insufficient_budget (resolve : Int → String) (s : EngineState)
    (team : String) (player amount : Int) (t : TeamSt)
    (ht : lookupTeam team s.teams = some t) (hover : amount > t.left) :
    assign resolve s team player amount = (s, AssignResult.insufficientBudget team, false) := by
  simp [assign, ht, hover]

theorem C3_insufficient_budget_witness :
    assign (fun _ => "X") (initState ["A"]) "A" 9 10001 =
      (initState ["A"], AssignResult.insufficientBudget "A", false) :=
  C3_insufficient_budget (fun _ => "X") (initState ["A"]) "A" 9 10001 freshTeam
    (by decide) (by decide)

/-- Claim C8 (Reconciliation is additive-only): reconcileTeams keeps
every existing binding unchanged and in place (the old association
list is an initial segment of the new one, so the balance and roster
of every already-present team survive, also when the name is absent
from the supplied list), and binds each name not already present to a
fresh team at the initial budget with an empty roster. -/
theorem C8_reconcile_additive (s : EngineState) (newNames : List String) (name : String) :
    (∃ ext, (reconcile_team_state s newNames).teams = s.teams ++ ext)
    ∧ lookupTeam name (reconcile_team_state s newNames).teams =
        match lookupTeam name s.teams with
        | some t => some t
        | none => if name ∈ newNames then some freshTeam else none := by
  constructor
  · exact foldl_setdefault_ext newNames s.teams
  · exact lookupTeam_foldl_setdefault newNames s.teams name

/-- Claim C2 (code bug): the storage write performed inside save_state
does report failure (put_object returns false), but save_state
discards that boolean and reports success either way, so a failed save
of a mutating operation is silently swallowed instead of being
surfaced to the caller. -/
theorem C2_save_failure_swallowed :
    put_object false = false ∧ save_state false = true ∧ save_state true = true :=
  ⟨rfl, rfl, rfl⟩

/-- Claim C4 counterexample: start fresh with teams A and B, then
upload a team list naming only A (TEAM_NAMES becomes that list while
the one-way reconcile keeps B in team_state). Team B is known before
the reset, yet after reset it is gone, because reset rebuilds
team_state from the current TEAM_NAMES list only. -/
theorem C4_reset_counterexample :
    lookupTeam "B" (uploadTeams (initState ["A", "B"]) ["A"]).teams = some freshTeam
    ∧ lookupTeam "B"
        (reset_auction_state (uploadTeams (initState ["A", "B"]) ["A"])).teams = none := by
  decide

/-- Claim C4 amended: after reset the current card is empty, and the
teams present are exactly those named in the current TEAM_NAMES list,
each at the initial budget with an empty roster; a team recorded in
the state but absent from the current name list is deleted by the
reset rather than kept. -/
theorem C4_reset_totality (s : EngineState) :
    (reset_auction_state s).currentCard = emptyCard
    ∧ ∀ name, lookupTeam name (reset_auction_state s).teams =
        if name ∈ s.teamNames then some freshTeam else none := by
  refine ⟨rfl, fun name => ?_⟩
  show lookupTeam name (freshTeams s.teamNames) = _
  rw [freshTeams, lookupTeam_foldl_setdefault]
  simp [lookupTeam]

/-- Claim C9 counterexample: 999 lies far outside the displayable
range 1..MAX_IMAGE_NUM, yet assign accepts it, appends a roster entry
for it and persists, instead of rejecting the player number. -/
theorem C9_invalid_player_counterexample :
    (999 : Int) > MAX_IMAGE_NUM
    ∧ (assign (fun _ => "X") (initState ["A"]) "A" 999 500).2.1 = AssignResult.assigned 999
    ∧ lookupTeam "A" ((assign (fun _ => "X") (initState ["A"]) "A" 999 500).1).teams =
        some { left := 9500,
               players := [{ idx := 1, name := "999_X", prize := 500, player_num := 999 }] } := by
  decide

/-- Claim C9 amended: showPlayer rejects a player number outside
1..MAX_IMAGE_NUM before touching the state, but assign performs no
player-number validation at all: given an existing team and an
affordable amount it accepts any integer player number, out-of-range
ones included. -/
theorem C9_invalid_player_validation (resolve : Int → String)
    (findImage : Int → Option String) (s : EngineState) (n : Int)
    (hn : n < 1 ∨ n > MAX_IMAGE_NUM) :
    showPlayer resolve findImage s n = (s, false)
    ∧ ∀ team t amount, lookupTeam team s.teams = some t → amount ≤ t.left →
        (assign resolve s team n amount).2.1 = AssignResult.assigned n := by
  constructor
  · rw [showPlayer, if_neg]
    rintro ⟨h1, h2⟩
    rcases hn with h | h
    · omega
    · omega
  · intro team t amount ht hamt
    have hgt : ¬amount > t.left := not_lt.mpr hamt
    simp [assign, ht, hgt]

theorem C9_invalid_player_validation_witness :
    showPlayer (fun _ => "X") (fun _ => none) (initState ["A"]) 999 = (initState ["A"], false)
    ∧ (assign (fun _ => "X") (initState ["A"]) "A" 999 500).2.1 = AssignResult.assigned 999 :=
  ⟨(C9_invalid_player_validation (fun _ => "X") (fun _ => none) (initState ["A"]) 999
      (Or.inr (by decide))).1,
   (C9_invalid_player_validation (fun _ => "X") (fun _ => none) (initState ["A"]) 999
      (Or.inr (by decide))).2 "A" freshTeam 500 (by decide) (by decide)⟩

/-- Claim C5 (Undo postcondition): the undo scan walks teams in
insertion order of team_state and, within a team, roster entries in
order; an entry matches when its player_num equals the target or its
display name begins with the target number and an underscore. Only
the first match found anywhere is removed, its prize refunded to that
team and that roster renumbered, while every team before and after the
hit is untouched; a duplicate assignment of the player therefore needs
a second undo call. When no entry matches in any team, the call leaves
the state completely unchanged and performs no save: like a successful
undo, it answers with a redirect, not an error. -/
theorem C5_undo_first_match (target : Int) (s : EngineState) :
    ((∀ nt ∈ s.teams, ∀ p ∈ nt.2.players, entryMatches target p = false) →
      undo s target = (s, UndoResult.noMatch, false))
    ∧ (∀ pre n t post qs₁ q qs₂,
        s.teams = pre ++ (n, t) :: post →
        (∀ nt ∈ pre, ∀ p ∈ nt.2.players, entryMatches target p = false) →
        t.players = qs₁ ++ q :: qs₂ →
        (∀ p ∈ qs₁, entryMatches target p = false) →
        entryMatches target q = true →
        undo s target =
          ({ s with teams := pre ++ (n,
              { left := t.left + q.prize,
                players := _reindex_team (qs₁ ++ qs₂) }) :: post },
           UndoResult.removed target, true)) := by
  constructor
  · intro hno
    simp [undo, undoTeams_none_of_no_match hno]
  · intro pre n t post qs₁ q qs₂ hteams hpre hsplit hq₁ hq
    have hrf : removeFirst target t.players = some (q, qs₁ ++ qs₂) := by
      rw [hsplit]
      exact removeFirst_split qs₂ hq₁ hq
    have hu := undoTeams_split n t post hpre hrf
    rw [← hteams] at hu
    simp [undo, hu]

theorem C5_undo_first_match_witness :
    undo (initState ["A"]) 7 = (initState ["A"], UndoResult.noMatch, false)
    ∧ undo ((assign (fun _ => "X") (initState ["A", "B"]) "B" 7 500).1) 7 =
        ({ teamNames := ["A", "B"],
           teams := [("A", freshTeam), ("B", freshTeam)],
           currentCard := emptyCard }, UndoResult.removed 7, true) := by
  constructor
  · exact (C5_undo_first_match 7 (initState ["A"])).1 (by decide)
  · have h := (C5_undo_first_match 7
        ((assign (fun _ => "X") (initState ["A", "B"]) "B" 7 500).1)).2
      [("A", freshTeam)] "B"
      { left := 9500, players := [{ idx := 1, name := "7_X", prize := 500, player_num := 7 }] }
      [] []
      { idx := 1, name := "7_X", prize := 500, player_num := 7 }
      []
      (by decide) (by decide) rfl (by decide) (by decide)
    rw [h]
    decide

/-- Claim C10 (implicit, no price validation): assign never checks
that the amount is non-negative; every integer amount at most the
balance is accepted, the appended entry records exactly that amount as
its prize and the balance becomes balance minus amount; with the
concrete negative amount -5 on a fresh team the resulting balance
10005 strictly exceeds the initial budget. -/
theorem C10_no_price_validation (resolve : Int → String) (s : EngineState)
    (team : String) (player amount : Int) (t : TeamSt)
    (hnd : KeysNodup s.teams) (ht : lookupTeam team s.teams = some t)
    (hamt : amount ≤ t.left) :
    (assign resolve s team player amount).2.1 = AssignResult.assigned player
    ∧ lookupTeam team ((assign resolve s team player amount).1).teams =
        some { left := t.left - amount, players := t.players ++
          [{ idx := t.players.length + 1,
             name := toString player ++ "_" ++ resolve player,
             prize := amount, player_num := player }] }
    ∧ lookupTeam "A" ((assign (fun _ => "X") (initState ["A"]) "A" 7 (-5)).1).teams =
        some { left := 10005,
               players := [{ idx := 1, name := "7_X", prize := -5, player_num := 7 }] }
    ∧ (10005 : Int) > BUDGET := by
  have hgt : ¬amount > t.left := not_lt.mpr hamt
  obtain ⟨pre, post, heq, hpre⟩ := lookupTeam_split ht
  have hupd := updateTeam_of_lookup (fun u =>
      { left := u.left - amount, players := u.players ++
        [{ idx := t.players.length + 1,
           name := toString player ++ "_" ++ resolve player,
           prize := amount, player_num := player }] }) hnd heq hpre
  refine ⟨by simp [assign, ht, hgt], ?_, by decide, by decide⟩
  have hstate : ((assign resolve s team player amount).1).teams =
      updateTeam team (fun u =>
        { left := u.left - amount, players := u.players ++
          [{ idx := t.players.length + 1,
             name := toString player ++ "_" ++ resolve player,
             prize := amount, player_num := player }] }) s.teams := by
    simp [assign, ht, hgt]
  rw [hstate, hupd]
  exact lookupTeam_pre_cons post _ hpre

theorem C10_no_price_validation_witness :
    (assign (fun _ => "X") (initState ["A"]) "A" 7 (-5)).2.1 = AssignResult.assigned 7
    ∧ lookupTeam "A" ((assign (fun _ => "X") (initState ["A"]) "A" 7 (-5)).1).teams =
        some { left := 10005,
               players := [{ idx := 1, name := "7_X", prize := -5, player_num := 7 }] } := by
  have h := C10_no_price_validation (fun _ => "X") (initState ["A"]) "A" 7 (-5) freshTeam
    (by rw [KeysNodup]; decide) (by decide) (by decide)
  exact ⟨h.1, h.2.2.1⟩

/-- Claim C6 counterexample: player 7 is assigned to team A and then
(duplicate assignment, which assign does not prevent) to team B for an
affordable 300 out of 10000. The immediately following undo of player
7 removes the match found first in team iteration order, which lives
in team A, so the balance of B stays at 9700 instead of being restored
to its pre-assign value 10000. -/
theorem C6_undo_inverse_counterexample :
    (assign (fun _ => "X")
        ((assign (fun _ => "X") (initState ["A", "B"]) "A" 7 500).1) "B" 7 300).2.1
      = AssignResult.assigned 7
    ∧ Option.map TeamSt.left (lookupTeam "B"
        ((assign (fun _ => "X") (initState ["A", "B"]) "A" 7 500).1).teams) = some 10000
    ∧ Option.map TeamSt.left (lookupTeam "B"
        ((undo (assign (fun _ => "X")
          ((assign (fun _ => "X") (initState ["A", "B"]) "A" 7 500).1) "B" 7 300).1 7).1).teams)
      = some 9700
    ∧ ¬ Option.map TeamSt.left (lookupTeam "B"
        ((undo (assign (fun _ => "X")
          ((assign (fun _ => "X") (initState ["A", "B"]) "A" 7 500).1) "B" 7 300).1 7).1).teams)
      = some 10000 := by
  decide

/-- Claim C6 amended: provided the player has no matching entry in any
team before the assign (that is, no duplicate assignment is involved),
a successful assign followed immediately by undo of the same player
restores the whole state: the balance of the team returns to its
pre-assign value and exactly the one appended roster entry is removed
again. -/
theorem C6_undo_inverse_of_assign (resolve : Int → String) (s : EngineState)
    (team : String) (player amount : Int) (t : TeamSt)
    (hnd : KeysNodup s.teams)
    (ht : lookupTeam team s.teams = some t)
    (hamt : amount ≤ t.left)
    (hwi : WellIndexed t.players)
    (hnom : ∀ nt ∈ s.teams, ∀ p ∈ nt.2.players, entryMatches player p = false) :
    undo (assign resolve s team player amount).1 player
      = (s, UndoResult.removed player, true) := by
  obtain ⟨tn, tms, cc⟩ := s
  dsimp only at hnd ht hnom
  have hgt : ¬amount > t.left := not_lt.mpr hamt
  obtain ⟨pre, post, heq, hpre⟩ := lookupTeam_split ht
  have hupd := updateTeam_of_lookup (fun u =>
      { left := u.left - amount, players := u.players ++
        [{ idx := t.players.length + 1,
           name := toString player ++ "_" ++ resolve player,
           prize := amount, player_num := player }] }) hnd heq hpre
  have hstate : (assign resolve ⟨tn, tms, cc⟩ team player amount).1 =
      ⟨tn, pre ++ (team,
        { left := t.left - amount, players := t.players ++
          [{ idx := t.players.length + 1,
             name := toString player ++ "_" ++ resolve player,
             prize := amount, player_num := player }] }) :: post, cc⟩ := by
    have h1 : (assign resolve ⟨tn, tms, cc⟩ team player amount).1 =
        ⟨tn, updateTeam team (fun u =>
          { left := u.left - amount, players := u.players ++
            [{ idx := t.players.length + 1,
               name := toString player ++ "_" ++ resolve player,
               prize := amount, player_num := player }] }) tms, cc⟩ := by
      simp [assign, ht, hgt]
    rw [h1, hupd]
  have hentry : entryMatches player
      { idx := t.players.length + 1,
        name := toString player ++ "_" ++ resolve player,
        prize := amount, player_num := player } = true := by
    simp [entryMatches]
  have hq1 : ∀ p ∈ t.players, entryMatches player p = false :=
    hnom (team, t) (lookupTeam_mem ht)
  have hrf : removeFirst player (t.players ++
      [{ idx := t.players.length + 1,
         name := toString player ++ "_" ++ resolve player,
         prize := amount, player_num := player }]) =
      some ({ idx := t.players.length + 1,
              name := toString player ++ "_" ++ resolve player,
              prize := amount, player_num := player }, t.players ++ []) :=
    removeFirst_split [] hq1 hentry
  have hpre' : ∀ nt ∈ pre, ∀ p ∈ nt.2.players, entryMatches player p = false := by
    intro nt hnt
    exact hnom nt (by rw [heq]; exact List.mem_append_left _ hnt)
  have hu := undoTeams_split team
      { left := t.left - amount, players := t.players ++
        [{ idx := t.players.length + 1,
           name := toString player ++ "_" ++ resolve player,
           prize := amount, player_num := player }] } post hpre' hrf
  dsimp only at hu
  have hfix : ({ left := t.left - amount + amount,
                 players := _reindex_team (t.players ++ []) } : TeamSt) = t := by
    have h2 : _reindex_team (t.players ++ []) = t.players := by
      rw [List.append_nil, _reindex_team]
      exact reindexFrom_of_wellIndexed hwi
    have h3 : t.left - amount + amount = t.left := by ring
    rw [h2, h3]
  rw [hfix] at hu
  rw [hstate]
  simp [undo, hu, ← heq]

theorem C6_undo_inverse_of_assign_witness :
    undo (assign (fun _ => "X") (initState ["A", "B"]) "A" 7 500).1 7
      = (initState ["A", "B"], UndoResult.removed 7, true) :=
  C6_undo_inverse_of_assign (fun _ => "X") (initState ["A", "B"]) "A" 7 500 freshTeam
    (by rw [KeysNodup]; decide) (by decide) (by decide)
    (by rw [WellIndexed]; decide) (by decide)

end AuctionBoard
